import Mathlib

/-!
Verification of the `lblb` (leaky-bucket) load balancer
(`pkg/server/service/loadbalancer/lblb/lb.go`).

The Go source is embedded shallowly:

* the `golang.org/x/time/rate` token bucket becomes `Bucket` with exact
  rational token arithmetic (the Go library measures time in `float64`
  seconds; here one abstract time unit is one configured period unit, and
  the refill rate `average / period` is exact, which agrees with the
  library whenever `average` divides the period expressed in nanoseconds —
  in particular for `average = 1`, the only case exercised concretely);
* `container/heap`'s `up`/`down` and the balancer's `Push`/`Pop`/`Swap`/
  `Less` over the `handlers` slice become `upH`/`downH`/`heapPush`/
  `heapPop`/`swapL`/`lessAt` over a `List namedHandler`;
* the mutex, the logging and the opaque `http.Handler` capability are
  elided; the `serverAvailability` map (only ever written by commented-out
  code) and the dormant `sticky` field (never read by any modelled path)
  are dropped;
* callbacks registered by `RegisterStatusUpdater` are identified by an
  abstract id (`Nat`); an operation that would invoke callbacks instead
  returns the list of (id, argument) notification events it fires, in
  invocation order.
-/

namespace Lblb

/-- Exact rational numbers as an integer numerator over a positive
integer denominator, without normalization.  Mathlib's `ℚ` normalizes
through operations marked `@[irreducible]`, which blocks kernel
reduction inside `decide`; this unnormalized representation keeps every
balancer computation kernel-reducible while staying exact.  `Frac.val`
interprets a `Frac` in `ℚ` and the `val_add`/`val_sub`/`val_mul`/
`le_iff_val`/`lt_iff_val` lemmas below prove each operation agrees with
its rational counterpart. -/
structure Frac where
  num : Int
  den : Int
  den_pos : 0 < den

instance : DecidableEq Frac := fun a b =>
  if h : a.num = b.num ∧ a.den = b.den then
    isTrue (by cases a; cases b; cases h.1; cases h.2; rfl)
  else
    isFalse (by intro he; cases he; simp at h)

/-- The integer `n` as a `Frac`. -/
def Frac.ofInt (n : Int) : Frac :=
  ⟨n, 1, one_pos⟩

instance : OfNat Frac 0 := ⟨Frac.ofInt 0⟩

instance : OfNat Frac 1 := ⟨Frac.ofInt 1⟩

/-- Exact addition of fractions. -/
def Frac.add (a b : Frac) : Frac :=
  ⟨a.num * b.den + b.num * a.den, a.den * b.den, mul_pos a.den_pos b.den_pos⟩

instance : Add Frac := ⟨Frac.add⟩

/-- Exact subtraction of fractions. -/
def Frac.sub (a b : Frac) : Frac :=
  ⟨a.num * b.den - b.num * a.den, a.den * b.den, mul_pos a.den_pos b.den_pos⟩

instance : Sub Frac := ⟨Frac.sub⟩

/-- Exact multiplication of fractions. -/
def Frac.mul (a b : Frac) : Frac :=
  ⟨a.num * b.num, a.den * b.den, mul_pos a.den_pos b.den_pos⟩

instance : Mul Frac := ⟨Frac.mul⟩

/-- Order on fractions by cross multiplication (sound because
denominators are positive). -/
def Frac.le (a b : Frac) : Prop :=
  a.num * b.den ≤ b.num * a.den

instance : LE Frac := ⟨Frac.le⟩

instance (a b : Frac) : Decidable (a ≤ b) :=
  inferInstanceAs (Decidable (a.num * b.den ≤ b.num * a.den))

/-- Strict order on fractions by cross multiplication. -/
def Frac.lt (a b : Frac) : Prop :=
  a.num * b.den < b.num * a.den

instance : LT Frac := ⟨Frac.lt⟩

instance (a b : Frac) : Decidable (a < b) :=
  inferInstanceAs (Decidable (a.num * b.den < b.num * a.den))

/-- The exact quotient `a / p` for a positive denominator `p`; callers
below only reach it with `p ≥ 1` (the sanitized period).  A
non-positive `p` falls back to denominator 1 to keep the function
total. -/
def Frac.divInt (a p : Int) : Frac :=
  if h : 0 < p then ⟨a, p, h⟩ else ⟨a, 1, one_pos⟩

/-- Interpretation of a `Frac` as a rational number. -/
def Frac.val (x : Frac) : ℚ :=
  (x.num : ℚ) / (x.den : ℚ)

/-- Token-bucket state of one `rate.Limiter`.
`limit` is tokens per time unit, `burst` the capacity; `tokens`/`last`
mirror the limiter's lazily-advanced internal state.  A fresh limiter
behaves as a full bucket, so `Add` below creates it with
`tokens = burst`. -/
structure Bucket where
  limit : Frac
  burst : Frac
  tokens : Frac
  last : Frac
deriving DecidableEq

/-- `rate.Limiter`'s `advance`: the tokens available at time `t`
(refill for the time elapsed since `last`, capped at `burst`; a clock
that went backwards is clamped, as in the library). -/
def advance (bk : Bucket) (t : Frac) : Frac :=
  let last := if t < bk.last then t else bk.last
  let tokens := bk.tokens + (t - last) * bk.limit
  if bk.burst < tokens then bk.burst else tokens

/-- `rate.Limiter.Allow` at time `t` (that is `AllowN(t, 1)`, a
`reserveN` with `maxFutureReserve = 0`): admission succeeds when one
token fits in the burst and is available after advancing; on success the
token is consumed (`last` advances, `tokens` decremented), on failure
the limiter state is left untouched.  Returns the decision and the new
bucket state. -/
def allow (bk : Bucket) (t : Frac) : Bool × Bucket :=
  let tokens := advance bk t
  if 1 ≤ bk.burst ∧ 1 ≤ tokens then
    (true, { bk with tokens := tokens - 1, last := t })
  else
    (false, bk)

/-- One backend entry (`namedHandler` in the source); the opaque
`http.Handler` is elided. -/
structure namedHandler where
  name : String
  burst : Int
  average : Int
  period : Int
  priority : Int
  bucket : Bucket
  canAllow : Bool
deriving DecidableEq

instance : Inhabited namedHandler :=
  ⟨{ name := "", burst := 0, average := 0, period := 0, priority := 0,
     bucket := { limit := 0, burst := 0, tokens := 0, last := 0 },
     canAllow := false }⟩

/-- The immutable identity of an entry: everything except the mutable
admission state (`bucket`, `canAllow`).  This is what "the same entry"
means once Go's pointer identity is flattened into values. -/
def entryKey (h : namedHandler) : String × Int × Int × Int × Int :=
  (h.name, h.burst, h.average, h.period, h.priority)

/-- Priority of the entry stored at index `i`; out-of-range reads return
the default entry (every use below is in range). -/
def prioAt (l : List namedHandler) (i : Nat) : Int :=
  (l.getD i default).priority

/-- `Swap` of `heap.Interface`: exchange the entries at indices `i` and
`j` of the handlers slice. -/
def swapL (l : List namedHandler) (i j : Nat) : List namedHandler :=
  match l.get? i, l.get? j with
  | some a, some b => (l.set i b).set j a
  | _, _ => l

/-- `Less` of `heap.Interface`: strict comparison of priorities. -/
def lessAt (l : List namedHandler) (i j : Nat) : Bool :=
  match l.get? i, l.get? j with
  | some a, some b => a.priority < b.priority
  | _, _ => false

/-- Loop body of `container/heap`'s `up`, indexed by fuel so that the
recursion is structural (and hence computes by kernel reduction).  The
index `j` strictly decreases on every iteration, so with any
`fuel > j` the out-of-fuel branch is unreachable; `upH_eq` below proves
the Go loop equation. -/
def upHF : Nat → List namedHandler → Nat → List namedHandler
  | 0, l, _ => l
  | fuel + 1, l, j =>
    let i := (j - 1) / 2
    if i = j ∨ ¬ lessAt l j i then l
    else upHF fuel (swapL l i j) i

/-- `container/heap`'s `up`: sift the entry at index `j` towards the
root while it is strictly smaller than its parent. -/
def upH (l : List namedHandler) (j : Nat) : List namedHandler :=
  upHF (j + 1) l j

/-- Loop body of `container/heap`'s `down` restricted to the first `n`
entries, indexed by fuel so that the recursion is structural.  The
index `i` strictly increases on every iteration while the loop only
continues when `2 * i + 1 < n`, so `n - i` fuel is enough; moreover when
the fuel runs out `n ≤ i` and the loop's own exit test fires too, so the
out-of-fuel branch agrees with the loop; `downH_eq` below proves the Go
loop equation. -/
def downHF : Nat → List namedHandler → Nat → Nat → List namedHandler
  | 0, l, _, _ => l
  | fuel + 1, l, i, n =>
    let j1 := 2 * i + 1
    if n ≤ j1 then l
    else
      let j := if j1 + 1 < n ∧ lessAt l (j1 + 1) j1 then j1 + 1 else j1
      if ¬ lessAt l j i then l
      else downHF fuel (swapL l i j) j n

/-- `container/heap`'s `down` restricted to the first `n` entries: sift
the entry at index `i` down, swapping with its smaller child while that
child is strictly smaller. -/
def downH (l : List namedHandler) (i n : Nat) : List namedHandler :=
  downHF (n - i) l i n

/-- `heap.Push`: append the new entry and sift it up. -/
def heapPush (l : List namedHandler) (x : namedHandler) : List namedHandler :=
  upH (l ++ [x]) l.length

/-- `heap.Pop`: swap the root with the last entry, sift the new root
down over the shortened prefix, then remove and return the last entry.
Returns `none` on an empty pool (the Go code would panic there; no
caller reaches that case). -/
def heapPop (l : List namedHandler) : Option (namedHandler × List namedHandler) :=
  if l.isEmpty then none
  else
    let n := l.length - 1
    let l1 := downH (swapL l 0 n) 0 n
    some (l1.getLastD default, l1.dropLast)

/-- Balancer state (`LBBalancer`).  The healthy set
(`map[string]struct{}`) is kept as a duplicate-free list of names;
`updaters` is the ordered list of registered callback ids. -/
structure LBBalancer where
  wantsHealthCheck : Bool
  handlers : List namedHandler
  status : List String
  updaters : List Nat
deriving DecidableEq

/-- `New`: fresh balancer with empty pool, empty healthy set and no
updaters. -/
def newBalancer (wantHealthCheck : Bool) : LBBalancer :=
  { wantsHealthCheck := wantHealthCheck, handlers := [], status := [], updaters := [] }

/-- Insertion into the healthy-name set (`b.status[name] = struct{}{}`). -/
def insertName (l : List String) (name : String) : List String :=
  if name ∈ l then l else name :: l

/-- Removal from the healthy-name set (`delete(b.status, name)`). -/
def removeName (l : List String) (name : String) : List String :=
  l.filter (fun s => s ≠ name)

/-- `SetStatus`: mutate the healthy set, compare aggregate health (set
non-empty) before and after, and on a flip fire every registered updater
with the new aggregate value.  Returns the new state and the
notification events fired. -/
def setStatus (b : LBBalancer) (childName : String) (up : Bool) :
    LBBalancer × List (Nat × Bool) :=
  let upBefore := !b.status.isEmpty
  let status1 := if up then insertName b.status childName else removeName b.status childName
  let upAfter := !status1.isEmpty
  if upBefore = upAfter then ({ b with status := status1 }, [])
  else ({ b with status := status1 }, b.updaters.map (fun u => (u, upAfter)))

/-- `RegisterStatusUpdater`: rejected with a configuration error when
the balancer was built without health-check propagation; otherwise the
callback id is appended.  Returns the new state and the error message,
if any. -/
def registerStatusUpdater (b : LBBalancer) (u : Nat) : LBBalancer × Option String :=
  if !b.wantsHealthCheck then
    (b, some "healthCheck not enabled in config for this leaky bucket service")
  else
    ({ b with updaters := b.updaters ++ [u] }, none)

/-- The scanning loop of `nextServer`, before the re-insertion step:
repeatedly pop the minimum-priority entry, run the admission gate
(`handler.canAllow = handler.bucket.Allow()`), append the updated entry
to `poppedHandlers`, and stop on the first entry that is both healthy
and admitted, or when the pool is drained.  Returns (chosen entry if
any, remaining pool, final `poppedHandlers` list). -/
def selectScanF : Nat → List namedHandler → List String → Frac → List namedHandler →
    Option namedHandler × List namedHandler × List namedHandler
  | 0, pool, _, _, popped => (none, pool, popped)
  | fuel + 1, pool, status, t, popped =>
    match heapPop pool with
    | none => (none, pool, popped)
    | some (h0, rest) =>
      let a := allow h0.bucket t
      let h1 : namedHandler := { h0 with canAllow := a.1, bucket := a.2 }
      if h1.name ∈ status ∧ a.1 then (some h1, rest, popped ++ [h1])
      else selectScanF fuel rest status t (popped ++ [h1])

/-- The scanning loop, entered with fuel equal to the pool size: each
iteration pops one entry, so the pool length tracks the fuel exactly and
the out-of-fuel branch coincides with the pool-drained exit;
`selectScan_eq` below proves the Go loop equation. -/
def selectScan (pool : List namedHandler) (status : List String) (t : Frac)
    (popped : List namedHandler) :
    Option namedHandler × List namedHandler × List namedHandler :=
  selectScanF pool.length pool status t popped

/-- The tail of `nextServer`: push every provisionally popped handler
(and on success the chosen one, which `selectScan` has already appended
to `poppedHandlers`) back into the pool. -/
def selectLoop (pool : List namedHandler) (status : List String) (t : Frac) :
    Option namedHandler × List namedHandler :=
  let r := selectScan pool status t []
  (r.1, r.2.2.foldl heapPush r.2.1)

/-- `nextServer`: fast-path failure on an empty pool or an empty healthy
set, otherwise run the selection loop.  `none` stands for
`errNoAvailableServer`. -/
def nextServer (b : LBBalancer) (t : Frac) : Option namedHandler × LBBalancer :=
  if b.handlers.isEmpty || b.status.isEmpty then (none, b)
  else
    let r := selectLoop b.handlers b.status t
    (r.1, { b with handlers := r.2 })

/-- Observable outcome of `ServeHTTP`: either the request is forwarded
to the named backend, or a `ServiceUnavailable` error is written. -/
inductive DispatchResult where
  | served (name : String)
  | serviceUnavailable
deriving DecidableEq

/-- `ServeHTTP` at time `t`: fast-path `ServiceUnavailable` on an empty
pool or healthy set, otherwise `nextServer`; an error becomes
`ServiceUnavailable`, a chosen handler serves the request. -/
def dispatch (b : LBBalancer) (t : Frac) : DispatchResult × LBBalancer :=
  if b.handlers.isEmpty || b.status.isEmpty then (.serviceUnavailable, b)
  else
    match nextServer b t with
    | (none, b1) => (.serviceUnavailable, b1)
    | (some h, b1) => (.served h.name, b1)

/-- The entry `Add` constructs from the sanitized parameters.  The
limiter `rate.NewLimiter(rate.Every(period/average), burst)` starts as a
full bucket with refill rate `average / period` tokens per time unit.
The stored `period` field keeps the sanitized period (the source stores
it scaled to a `time.Duration`; the scale carries no information). -/
def mkHandler (name : String) (bu a p prio : Int) : namedHandler :=
  { name := name, burst := bu, average := a, period := p, priority := prio,
    bucket := { limit := Frac.divInt a p, burst := Frac.ofInt bu, tokens := Frac.ofInt bu,
                last := 0 },
    canAllow := true }

/-- `Add`: sanitize the optional parameters (`nil` pointers default to
1; `burst ≤ 1 → 1`, `period ≤ 0 → 1`, `priority ≤ 0 → 1`), drop the call
silently when the sanitized average is `≤ 0`, otherwise push the new
entry into the heap and mark its name healthy directly in the status
set.  `Add` never invokes updaters, so its event list is always empty. -/
def add (b : LBBalancer) (name : String) (burst average period priority : Option Int) :
    LBBalancer × List (Nat × Bool) :=
  let bu0 := burst.getD 1
  let bu := if bu0 ≤ 1 then 1 else bu0
  let a := average.getD 1
  if a ≤ 0 then (b, [])
  else
    let p0 := period.getD 1
    let p := if p0 ≤ 0 then 1 else p0
    let prio0 := priority.getD 1
    let prio := if prio0 ≤ 0 then 1 else prio0
    ({ b with
        handlers := heapPush b.handlers (mkHandler name bu a p prio),
        status := insertName b.status name }, [])

/-- One public operation on a balancer, for reasoning about call
sequences. -/
inductive Op where
  | addOp (name : String) (burst average period priority : Option Int)
  | setStatusOp (name : String) (up : Bool)
  | registerOp (u : Nat)
  | dispatchOp (t : Frac)
deriving DecidableEq

/-- State transition of one operation (outputs discarded). -/
def applyOp (b : LBBalancer) : Op → LBBalancer
  | .addOp name bu a p prio => (add b name bu a p prio).1
  | .setStatusOp name up => (setStatus b name up).1
  | .registerOp u => (registerStatusUpdater b u).1
  | .dispatchOp t => (dispatch b t).2

/-- Run a sequence of operations. -/
def runOps (b : LBBalancer) (ops : List Op) : LBBalancer :=
  ops.foldl applyOp b

/-- The backend name an operation serves a request to, if any. -/
def servedBy (b : LBBalancer) : Op → List String
  | .dispatchOp t =>
    match (dispatch b t).1 with
    | .served n => [n]
    | .serviceUnavailable => []
  | _ => []

/-- All backend names served along a sequence of operations. -/
def servedOps (b : LBBalancer) : List Op → List String
  | [] => []
  | op :: ops => servedBy b op ++ servedOps (applyOp b op) ops

/-- Guard used by the amended pool/health invariant: an operation is
good in state `b` when it is not a `SetStatus(·, true)` with a name
absent from the pool. -/
def goodOp (b : LBBalancer) : Op → Bool
  | .setStatusOp name true => (b.handlers.map namedHandler.name).contains name
  | _ => true

/-- A sequence of operations each of which is good in the state it runs
in. -/
def goodTrace (b : LBBalancer) : List Op → Bool
  | [] => true
  | op :: ops => goodOp b op && goodTrace (applyOp b op) ops

/-- Does the operation `Add` a backend under the given name? -/
def addsName (name : String) : Op → Bool
  | .addOp n _ _ _ _ => n == name
  | _ => false

/-- The pool/health invariant: every healthy name belongs to some pool
entry. -/
def StatusInPool (b : LBBalancer) : Prop :=
  ∀ n ∈ b.status, n ∈ b.handlers.map namedHandler.name

instance (b : LBBalancer) : Decidable (StatusInPool b) :=
  inferInstanceAs (Decidable (∀ n ∈ b.status, n ∈ b.handlers.map namedHandler.name))

/-- Binary-heap invariant on the first `n` entries: every child's
priority is at least its parent's. -/
def IsHeapUpTo (l : List namedHandler) (n : Nat) : Prop :=
  ∀ j, j < n → 0 < j → prioAt l ((j - 1) / 2) ≤ prioAt l j

/-- Binary-heap invariant on the whole handlers slice. -/
def IsHeap (l : List namedHandler) : Prop :=
  IsHeapUpTo l l.length

instance (l : List namedHandler) (n : Nat) : Decidable (IsHeapUpTo l n) :=
  inferInstanceAs (Decidable (∀ j, j < n → 0 < j → prioAt l ((j - 1) / 2) ≤ prioAt l j))

instance (l : List namedHandler) : Decidable (IsHeap l) :=
  inferInstanceAs (Decidable (IsHeapUpTo l l.length))

/-- `down`'s loop invariant: the first `n` entries satisfy the heap
relations except possibly at the children of `i`, and the children of
`i` are already at least `i`'s parent (vacuous for the root). -/
def AlmostHeap (l : List namedHandler) (n i : Nat) : Prop :=
  (∀ j, j < n → 0 < j → (j - 1) / 2 ≠ i → prioAt l ((j - 1) / 2) ≤ prioAt l j) ∧
  (∀ j, j < n → 0 < j → (j - 1) / 2 = i → 0 < i → prioAt l ((i - 1) / 2) ≤ prioAt l j)

/-- `Add` call as used by the spec's scenario: all four parameters
provided. -/
def scnAdd (b : LBBalancer) (name : String) (bu a p prio : Int) : LBBalancer :=
  (add b name (some bu) (some a) (some p) (some prio)).1

/-- The spec's scenario balancer: A(priority 1, burst 1, average 1 per 3
units), B(priority 2, burst 1, average 1 per 2 units), C(priority 3,
burst 2, average 1 per 1 unit), all healthy, all buckets full. -/
def scenarioB0 : LBBalancer :=
  scnAdd (scnAdd (scnAdd (newBalancer false) "A" 1 1 3 1) "B" 1 1 2 2) "C" 2 1 1 3

/-- The backends served by four dispatches spaced one time unit apart,
starting from full buckets. -/
def scenarioServed : List String :=
  servedOps scenarioB0
    [Op.dispatchOp (Frac.ofInt 0), Op.dispatchOp (Frac.ofInt 1),
     Op.dispatchOp (Frac.ofInt 2), Op.dispatchOp (Frac.ofInt 3)]


/-! ### Interpretation of `Frac` in `ℚ` (the embedding's arithmetic is exact) -/

theorem Frac.den_ne (a : Frac) : ((a.den : ℚ)) ≠ 0 := by
  exact_mod_cast a.den_pos.ne'

theorem Frac.val_ofInt (n : Int) : (Frac.ofInt n).val = (n : ℚ) := by
  simp [Frac.ofInt, Frac.val]

theorem Frac.val_add (a b : Frac) : (a + b).val = a.val + b.val := by
  show (Frac.add a b).val = a.val + b.val
  simp only [Frac.add, Frac.val]
  rw [div_add_div _ _ a.den_ne b.den_ne]
  push_cast
  ring_nf

theorem Frac.val_sub (a b : Frac) : (a - b).val = a.val - b.val := by
  show (Frac.sub a b).val = a.val - b.val
  simp only [Frac.sub, Frac.val]
  rw [div_sub_div _ _ a.den_ne b.den_ne]
  push_cast
  ring_nf

theorem Frac.val_mul (a b : Frac) : (a * b).val = a.val * b.val := by
  show (Frac.mul a b).val = a.val * b.val
  simp only [Frac.mul, Frac.val]
  rw [div_mul_div_comm]
  push_cast
  ring_nf

theorem Frac.le_iff_val (a b : Frac) : a ≤ b ↔ a.val ≤ b.val := by
  have ha : (0 : ℚ) < (a.den : ℚ) := by exact_mod_cast a.den_pos
  have hb : (0 : ℚ) < (b.den : ℚ) := by exact_mod_cast b.den_pos
  show Frac.le a b ↔ _
  rw [Frac.le, Frac.val, Frac.val, div_le_div_iff ha hb]
  exact_mod_cast Iff.rfl

theorem Frac.lt_iff_val (a b : Frac) : a < b ↔ a.val < b.val := by
  have ha : (0 : ℚ) < (a.den : ℚ) := by exact_mod_cast a.den_pos
  have hb : (0 : ℚ) < (b.den : ℚ) := by exact_mod_cast b.den_pos
  show Frac.lt a b ↔ _
  rw [Frac.lt, Frac.val, Frac.val, div_lt_div_iff ha hb]
  exact_mod_cast Iff.rfl

theorem Frac.val_divInt (a p : Int) (hp : 0 < p) :
    (Frac.divInt a p).val = (a : ℚ) / (p : ℚ) := by
  simp [Frac.divInt, hp, Frac.val]

/-! ### Swaps are permutations of the handlers slice -/

theorem length_swapL (l : List namedHandler) (i j : Nat) :
    (swapL l i j).length = l.length := by
  unfold swapL
  split <;> simp

theorem cons_set_perm {α : Type} :
    ∀ (t : List α) (k : Nat) (b : α), t.get? k = some b →
      ∀ a, (b :: t.set k a).Perm (a :: t)
  | x :: t2, 0, b, h, a => by
    simp only [List.get?] at h
    cases h
    exact List.Perm.swap _ _ t2
  | x :: t2, k + 1, b, h, a => by
    simp only [List.get?] at h
    show (b :: x :: t2.set k a).Perm (a :: x :: t2)
    refine (List.Perm.swap x b (t2.set k a)).trans ?_
    refine ((cons_set_perm t2 k b h a).cons x).trans ?_
    exact List.Perm.swap a x t2

theorem perm_set_set {α : Type} :
    ∀ (l : List α) (i j : Nat) (a b : α),
      l.get? i = some a → l.get? j = some b → ((l.set i b).set j a).Perm l
  | x :: t, 0, 0, a, b, hi, hj => by
    simp only [List.get?] at hi hj
    cases hi
    exact .refl _
  | x :: t, 0, j + 1, a, b, hi, hj => by
    simp only [List.get?] at hi hj
    cases hi
    exact cons_set_perm t j _ hj _
  | x :: t, i + 1, 0, a, b, hi, hj => by
    simp only [List.get?] at hi hj
    cases hj
    exact cons_set_perm t i _ hi _
  | x :: t, i + 1, j + 1, a, b, hi, hj => by
    simp only [List.get?] at hi hj
    exact (perm_set_set t i j a b hi hj).cons x


theorem perm_swapL (l : List namedHandler) (i j : Nat) : (swapL l i j).Perm l := by
  unfold swapL
  split
  next a b hi hj => exact perm_set_set l i j a b hi hj
  next => exact .refl _

theorem perm_upHF (fuel : Nat) :
    ∀ (l : List namedHandler) (j : Nat), (upHF fuel l j).Perm l := by
  induction fuel with
  | zero => intro l j; exact .refl l
  | succ fuel ih =>
    intro l j
    simp only [upHF]
    split
    · exact .refl l
    · exact (ih _ _).trans (perm_swapL _ _ _)

theorem perm_downHF (fuel : Nat) :
    ∀ (l : List namedHandler) (i n : Nat), (downHF fuel l i n).Perm l := by
  induction fuel with
  | zero => intro l i n; exact .refl l
  | succ fuel ih =>
    intro l i n
    simp only [downHF]
    split
    · exact .refl l
    · split <;> split <;>
        first
          | exact .refl l
          | exact (ih _ _ _).trans (perm_swapL _ _ _)

theorem perm_upH (l : List namedHandler) (j : Nat) : (upH l j).Perm l :=
  perm_upHF _ _ _

theorem perm_downH (l : List namedHandler) (i n : Nat) : (downH l i n).Perm l :=
  perm_downHF _ _ _ _

theorem heapPush_perm (l : List namedHandler) (x : namedHandler) :
    (heapPush l x).Perm (x :: l) :=
  (perm_upH _ _).trans (List.perm_append_singleton x l)

theorem length_downH (l : List namedHandler) (i n : Nat) :
    (downH l i n).length = l.length :=
  (perm_downH l i n).length_eq

theorem heapPop_none_iff (l : List namedHandler) : heapPop l = none ↔ l = [] := by
  unfold heapPop
  by_cases he : l.isEmpty
  · rw [if_pos he]
    simpa using List.isEmpty_iff.mp he
  · rw [if_neg he]
    constructor
    · intro h
      exact absurd h (by simp)
    · intro h
      subst h
      simp at he

theorem heapPop_of_ne_nil {l : List namedHandler} (h : l ≠ []) :
    heapPop l =
      some ((downH (swapL l 0 (l.length - 1)) 0 (l.length - 1)).getLastD default,
        (downH (swapL l 0 (l.length - 1)) 0 (l.length - 1)).dropLast) := by
  unfold heapPop
  rw [if_neg (by simpa using h)]

theorem heapPop_perm {l : List namedHandler} {h : namedHandler} {rest : List namedHandler}
    (hp : heapPop l = some (h, rest)) : l.Perm (h :: rest) := by
  have hne : l ≠ [] := by
    intro h0
    rw [(heapPop_none_iff l).mpr h0] at hp
    exact absurd hp (by simp)
  rw [heapPop_of_ne_nil hne] at hp
  simp only [Option.some.injEq, Prod.mk.injEq] at hp
  obtain ⟨hh, hr⟩ := hp
  have hperm : l.Perm (downH (swapL l 0 (l.length - 1)) 0 (l.length - 1)) :=
    ((perm_downH _ _ _).trans (perm_swapL _ _ _)).symm
  rcases List.eq_nil_or_concat (downH (swapL l 0 (l.length - 1)) 0 (l.length - 1)) with
    h0 | ⟨ys, y, hys⟩
  · rw [h0] at hperm
    exact absurd (List.length_eq_zero.mp (by simpa using hperm.length_eq)) hne
  · rw [List.concat_eq_append] at hys
    rw [hys, List.getLastD_concat] at hh
    rw [hys, List.dropLast_concat] at hr
    rw [hys] at hperm
    subst hh
    subst hr
    exact hperm.trans (List.perm_append_singleton _ _)

theorem heapPop_length {l : List namedHandler} {h : namedHandler} {rest : List namedHandler}
    (hp : heapPop l = some (h, rest)) : rest.length + 1 = l.length := by
  have := (heapPop_perm hp).length_eq
  simpa using this.symm

theorem get?_swapL_of_ne (l : List namedHandler) {i j k : Nat} (hki : k ≠ i) (hkj : k ≠ j) :
    (swapL l i j).get? k = l.get? k := by
  unfold swapL
  split
  next a b hi hj =>
    rw [List.get?_eq_getElem?, List.get?_eq_getElem?,
      List.getElem?_set_ne (by omega : j ≠ k), List.getElem?_set_ne (by omega : i ≠ k)]
  next => rfl

theorem get?_swapL_right (l : List namedHandler) {i j : Nat}
    (hi : i < l.length) (hj : j < l.length) : (swapL l i j).get? j = l.get? i := by
  unfold swapL
  split
  next a b h1 h2 =>
    rw [List.get?_eq_getElem?, List.getElem?_set_self (by simpa using hj), h1]
  next hcontra =>
    exfalso
    exact hcontra (l.get ⟨i, hi⟩) (l.get ⟨j, hj⟩) (List.get?_eq_get hi) (List.get?_eq_get hj)

theorem get?_swapL_left (l : List namedHandler) {i j : Nat}
    (hi : i < l.length) (hj : j < l.length) : (swapL l i j).get? i = l.get? j := by
  by_cases hij : i = j
  · subst hij
    exact get?_swapL_right l hi hi
  · unfold swapL
    split
    next a b h1 h2 =>
      rw [List.get?_eq_getElem?, List.getElem?_set_ne (by omega : j ≠ i),
        List.getElem?_set_self (by simpa using hi), h2]
    next hcontra =>
      exfalso
      exact hcontra (l.get ⟨i, hi⟩) (l.get ⟨j, hj⟩) (List.get?_eq_get hi) (List.get?_eq_get hj)

theorem get?_downHF_ge (fuel : Nat) :
    ∀ (l : List namedHandler) (i n k : Nat), n ≤ k →
      (downHF fuel l i n).get? k = l.get? k := by
  induction fuel with
  | zero => intro l i n k hk; rfl
  | succ fuel ih =>
    intro l i n k hk
    simp only [downHF]
    by_cases h1 : n ≤ 2 * i + 1
    · rw [if_pos h1]
    · rw [if_neg h1]
      by_cases h2 : 2 * i + 1 + 1 < n ∧ lessAt l (2 * i + 1 + 1) (2 * i + 1) = true
      · rw [if_pos h2]
        by_cases h3 : lessAt l (2 * i + 1 + 1) i = true
        · rw [if_neg (not_not_intro h3), ih _ _ _ _ hk,
            get?_swapL_of_ne _ (by omega) (by omega)]
        · rw [if_pos h3]
      · rw [if_neg h2]
        by_cases h3 : lessAt l (2 * i + 1) i = true
        · rw [if_neg (not_not_intro h3), ih _ _ _ _ hk,
            get?_swapL_of_ne _ (by omega) (by omega)]
        · rw [if_pos h3]

theorem heapPop_root {l : List namedHandler} {h : namedHandler} {rest : List namedHandler}
    (hp : heapPop l = some (h, rest)) : h = l.getD 0 default := by
  have hne : l ≠ [] := by
    intro h0
    rw [(heapPop_none_iff l).mpr h0] at hp
    exact absurd hp (by simp)
  have hlpos : 0 < l.length := List.length_pos.mpr hne
  rw [heapPop_of_ne_nil hne] at hp
  simp only [Option.some.injEq, Prod.mk.injEq] at hp
  have hlen : (downH (swapL l 0 (l.length - 1)) 0 (l.length - 1)).length = l.length := by
    rw [length_downH, length_swapL]
  have hget : (downH (swapL l 0 (l.length - 1)) 0 (l.length - 1)).get? (l.length - 1) =
      l.get? 0 := by
    rw [show downH (swapL l 0 (l.length - 1)) 0 (l.length - 1) =
        downHF (l.length - 1 - 0) (swapL l 0 (l.length - 1)) 0 (l.length - 1) from rfl,
      get?_downHF_ge _ _ _ _ _ (le_refl _)]
    exact get?_swapL_right l hlpos (by omega)
  have hgl : (downH (swapL l 0 (l.length - 1)) 0 (l.length - 1)).getLastD default =
      l.getD 0 default := by
    rw [List.getLastD_eq_getLast?, List.getLast?_eq_get? , hlen, hget, List.getD_eq_get?]
  rw [← hp.1, hgl]

theorem upHF_stable :
    ∀ (f1 f2 : Nat) (l : List namedHandler) (j : Nat), j < f1 → j < f2 →
      upHF f1 l j = upHF f2 l j := by
  intro f1
  induction f1 with
  | zero => intro f2 l j h1; omega
  | succ g1 ih =>
    intro f2 l j h1 h2
    obtain ⟨g2, rfl⟩ : ∃ g2, f2 = g2 + 1 := ⟨f2 - 1, by omega⟩
    simp only [upHF]
    split
    · rfl
    next hcond =>
      have hij : (j - 1) / 2 ≠ j := by
        intro he
        exact hcond (Or.inl he)
      have hlt : (j - 1) / 2 < j := by omega
      exact ih g2 _ _ (by omega) (by omega)

theorem upH_eq (l : List namedHandler) (j : Nat) :
    upH l j =
      if (j - 1) / 2 = j ∨ ¬ lessAt l j ((j - 1) / 2) then l
      else upH (swapL l ((j - 1) / 2) j) ((j - 1) / 2) := by
  show upHF (j + 1) l j = _
  simp only [upHF]
  split
  · rfl
  next hcond =>
    have hij : (j - 1) / 2 ≠ j := by
      intro he
      exact hcond (Or.inl he)
    have hlt : (j - 1) / 2 < j := by omega
    exact upHF_stable j ((j - 1) / 2 + 1) _ _ (by omega) (by omega)

theorem downHF_of_le {l : List namedHandler} {i n : Nat} (h : n ≤ 2 * i + 1) :
    ∀ fuel, downHF fuel l i n = l := by
  intro fuel
  cases fuel with
  | zero => rfl
  | succ fuel => simp only [downHF, if_pos h]

theorem downHF_stable :
    ∀ (f1 f2 : Nat) (l : List namedHandler) (i n : Nat), n - i ≤ f1 → n - i ≤ f2 →
      downHF f1 l i n = downHF f2 l i n := by
  intro f1
  induction f1 with
  | zero =>
    intro f2 l i n h1 h2
    have hle : n ≤ 2 * i + 1 := by omega
    rw [downHF_of_le hle, downHF_of_le hle]
  | succ g1 ih =>
    intro f2 l i n h1 h2
    by_cases hle : n ≤ 2 * i + 1
    · rw [downHF_of_le hle, downHF_of_le hle]
    · obtain ⟨g2, rfl⟩ : ∃ g2, f2 = g2 + 1 := ⟨f2 - 1, by omega⟩
      simp only [downHF]
      rw [if_neg hle, if_neg hle]
      by_cases h2c : 2 * i + 1 + 1 < n ∧ lessAt l (2 * i + 1 + 1) (2 * i + 1) = true
      · rw [if_pos h2c]
        by_cases h3 : lessAt l (2 * i + 1 + 1) i = true
        · rw [if_neg (not_not_intro h3), if_neg (not_not_intro h3)]
          exact ih g2 _ _ _ (by omega) (by omega)
        · rw [if_pos h3, if_pos h3]
      · rw [if_neg h2c]
        by_cases h3 : lessAt l (2 * i + 1) i = true
        · rw [if_neg (not_not_intro h3), if_neg (not_not_intro h3)]
          exact ih g2 _ _ _ (by omega) (by omega)
        · rw [if_pos h3, if_pos h3]

theorem downH_eq (l : List namedHandler) (i n : Nat) :
    downH l i n =
      if n ≤ 2 * i + 1 then l
      else
        let j := if 2 * i + 1 + 1 < n ∧ lessAt l (2 * i + 1 + 1) (2 * i + 1) then 2 * i + 1 + 1
          else 2 * i + 1
        if ¬ lessAt l j i then l
        else downH (swapL l i j) j n := by
  show downHF (n - i) l i n = _
  by_cases hle : n ≤ 2 * i + 1
  · rw [downHF_of_le hle, if_pos hle]
  · rw [if_neg hle]
    obtain ⟨k, hk⟩ : ∃ k, n - i = k + 1 := ⟨n - i - 1, by omega⟩
    rw [hk]
    simp only [downHF]
    rw [if_neg hle]
    by_cases h2c : 2 * i + 1 + 1 < n ∧ lessAt l (2 * i + 1 + 1) (2 * i + 1) = true
    · simp only [if_pos h2c]
      by_cases h3 : lessAt l (2 * i + 1 + 1) i = true
      · rw [if_neg (not_not_intro h3), if_neg (not_not_intro h3)]
        exact downHF_stable k (n - (2 * i + 1 + 1)) _ _ _ (by omega) (by omega)
      · rw [if_pos h3, if_pos h3]
    · simp only [if_neg h2c]
      by_cases h3 : lessAt l (2 * i + 1) i = true
      · rw [if_neg (not_not_intro h3), if_neg (not_not_intro h3)]
        exact downHF_stable k (n - (2 * i + 1)) _ _ _ (by omega) (by omega)
      · rw [if_pos h3, if_pos h3]

theorem selectScanF_nil (status : List String) (t : Frac) (popped : List namedHandler) :
    ∀ fuel, selectScanF fuel [] status t popped = (none, [], popped) := by
  intro fuel
  cases fuel with
  | zero => rfl
  | succ fuel => simp [selectScanF, heapPop]

theorem selectScanF_stable :
    ∀ (f1 f2 : Nat) (pool : List namedHandler) (status : List String) (t : Frac)
      (popped : List namedHandler), pool.length ≤ f1 → pool.length ≤ f2 →
      selectScanF f1 pool status t popped = selectScanF f2 pool status t popped := by
  intro f1
  induction f1 with
  | zero =>
    intro f2 pool status t popped h1 h2
    have hnil : pool = [] := List.length_eq_zero.mp (by omega)
    subst hnil
    rw [selectScanF_nil, selectScanF_nil]
  | succ g1 ih =>
    intro f2 pool status t popped h1 h2
    by_cases hnil : pool = []
    · subst hnil
      rw [selectScanF_nil, selectScanF_nil]
    · obtain ⟨g2, rfl⟩ : ∃ g2, f2 = g2 + 1 :=
        ⟨f2 - 1, by have := List.length_pos.mpr hnil; omega⟩
      obtain ⟨h0, rest, hp⟩ : ∃ h0 rest, heapPop pool = some (h0, rest) := by
        cases hpp : heapPop pool with
        | none => exact absurd ((heapPop_none_iff pool).mp hpp) hnil
        | some pr =>
          obtain ⟨a, b⟩ := pr
          exact ⟨a, b, rfl⟩
      have hrl : rest.length + 1 = pool.length := heapPop_length hp
      simp only [selectScanF]
      rw [hp]
      dsimp only
      split
      · rfl
      · exact ih g2 _ _ _ _ (by omega) (by omega)

theorem selectScan_eq (pool : List namedHandler) (status : List String) (t : Frac)
    (popped : List namedHandler) :
    selectScan pool status t popped =
      match heapPop pool with
      | none => (none, pool, popped)
      | some (h0, rest) =>
        let a := allow h0.bucket t
        let h1 : namedHandler := { h0 with canAllow := a.1, bucket := a.2 }
        if h1.name ∈ status ∧ a.1 then (some h1, rest, popped ++ [h1])
        else selectScan rest status t (popped ++ [h1])
    := by
  cases hp : heapPop pool with
  | none =>
    have hnil : pool = [] := (heapPop_none_iff pool).mp hp
    subst hnil
    exact selectScanF_nil status t popped _
  | some pr =>
    obtain ⟨h0, rest⟩ := pr
    have hrl : rest.length + 1 = pool.length := heapPop_length hp
    show selectScanF pool.length pool status t popped = _
    rw [← hrl]
    simp only [selectScanF]
    rw [hp]
    rfl

theorem selectScanF_acc (fuel : Nat) :
    ∀ (pool : List namedHandler) (status : List String) (t : Frac)
      (popped : List namedHandler),
      selectScanF fuel pool status t popped =
        ((selectScanF fuel pool status t []).1, (selectScanF fuel pool status t []).2.1,
          popped ++ (selectScanF fuel pool status t []).2.2) := by
  induction fuel with
  | zero => intro pool status t popped; simp [selectScanF]
  | succ g ih =>
    intro pool status t popped
    simp only [selectScanF]
    cases hp : heapPop pool with
    | none => simp
    | some pr =>
      obtain ⟨h0, rest⟩ := pr
      dsimp only
      split
      · simp
      · rw [ih rest status t (popped ++ [_]), ih rest status t ([] ++ [_])]
        simp

theorem selectScan_popped (pool : List namedHandler) (status : List String) (t : Frac)
    (popped : List namedHandler) :
    selectScan pool status t popped =
      ((selectScan pool status t []).1, (selectScan pool status t []).2.1,
        popped ++ (selectScan pool status t []).2.2) :=
  selectScanF_acc pool.length pool status t popped

theorem selectScanF_scan_facts :
    ∀ (fuel : Nat) (pool : List namedHandler) (status : List String) (t : Frac),
      pool.length ≤ fuel →
      ((selectScanF fuel pool status t []).2.2.map entryKey ++
        (selectScanF fuel pool status t []).2.1.map entryKey).Perm (pool.map entryKey) ∧
      ((selectScanF fuel pool status t []).1 = none →
        (selectScanF fuel pool status t []).2.1 = []) ∧
      (∀ h, (selectScanF fuel pool status t []).1 = some h →
        h.name ∈ status ∧ h.canAllow = true ∧ h ∈ (selectScanF fuel pool status t []).2.2) := by
  intro fuel
  induction fuel with
  | zero =>
    intro pool status t hle
    have hnil : pool = [] := List.length_eq_zero.mp (by omega)
    subst hnil
    simp [selectScanF]
  | succ g ih =>
    intro pool status t hle
    cases hp : heapPop pool with
    | none =>
      have hnil : pool = [] := (heapPop_none_iff pool).mp hp
      subst hnil
      rw [selectScanF_nil]
      simp
    | some pr =>
      obtain ⟨h0, rest⟩ := pr
      have hrl : rest.length + 1 = pool.length := heapPop_length hp
      have hperm : pool.Perm (h0 :: rest) := heapPop_perm hp
      have hkey : entryKey
          { h0 with canAllow := (allow h0.bucket t).1, bucket := (allow h0.bucket t).2 } =
          entryKey h0 := rfl
      simp only [selectScanF]
      rw [hp]
      dsimp only
      split
      next hcond =>
        refine ⟨?_, ?_, ?_⟩
        · simp only [List.nil_append, List.map_cons, List.map_nil, List.singleton_append]
          rw [hkey]
          exact ((hperm.map entryKey).symm)
        · intro h
          exact absurd h (by simp)
        · intro h hh
          simp only [Option.some.injEq] at hh
          subst hh
          refine ⟨hcond.1, ?_, by simp⟩
          simpa using hcond.2
      next hcond =>
        rw [selectScanF_acc]
        obtain ⟨ih1, ih2, ih3⟩ := ih rest status t (by omega)
        refine ⟨?_, ?_, ?_⟩
        · simp only [List.nil_append, List.map_append, List.map_cons, List.map_nil,
            List.singleton_append]
          rw [hkey]
          exact (ih1.cons (entryKey h0)).trans (hperm.map entryKey).symm
        · intro h
          simp only at h
          have := ih2 h
          simpa using this
        · intro h hh
          simp only at hh
          obtain ⟨m1, m2, m3⟩ := ih3 h hh
          exact ⟨m1, m2, by simp [m3]⟩

theorem foldl_heapPush_perm :
    ∀ (popped rest : List namedHandler), (popped.foldl heapPush rest).Perm (rest ++ popped) := by
  intro popped
  induction popped with
  | nil => intro rest; simp
  | cons x xs ih =>
    intro rest
    show (xs.foldl heapPush (heapPush rest x)).Perm (rest ++ x :: xs)
    refine (ih (heapPush rest x)).trans ?_
    refine (List.Perm.append_right xs (heapPush_perm rest x)).trans ?_
    exact List.perm_middle.symm

theorem selectLoop_perm_val (pool : List namedHandler) (status : List String) (t : Frac) :
    (selectLoop pool status t).2.Perm
      ((selectScan pool status t []).2.1 ++ (selectScan pool status t []).2.2) :=
  foldl_heapPush_perm _ _

theorem selectLoop_key_perm (pool : List namedHandler) (status : List String) (t : Frac) :
    ((selectLoop pool status t).2.map entryKey).Perm (pool.map entryKey) := by
  refine ((selectLoop_perm_val pool status t).map entryKey).trans ?_
  rw [List.map_append]
  exact (List.perm_append_comm).trans
    (selectScanF_scan_facts pool.length pool status t (le_refl _)).1

theorem nextServer_handlers_key_perm (b : LBBalancer) (t : Frac) :
    ((nextServer b t).2.handlers.map entryKey).Perm (b.handlers.map entryKey) := by
  unfold nextServer
  split
  · exact .refl _
  · exact selectLoop_key_perm b.handlers b.status t

theorem nextServer_status (b : LBBalancer) (t : Frac) :
    (nextServer b t).2.status = b.status := by
  unfold nextServer
  split <;> rfl

theorem nextServer_updaters (b : LBBalancer) (t : Frac) :
    (nextServer b t).2.updaters = b.updaters := by
  unfold nextServer
  split <;> rfl

theorem nextServer_wants (b : LBBalancer) (t : Frac) :
    (nextServer b t).2.wantsHealthCheck = b.wantsHealthCheck := by
  unfold nextServer
  split <;> rfl

theorem dispatch_state (b : LBBalancer) (t : Frac) :
    (dispatch b t).2 = (nextServer b t).2 := by
  unfold dispatch
  by_cases hcond : (b.handlers.isEmpty || b.status.isEmpty) = true
  · rw [if_pos hcond]
    unfold nextServer
    rw [if_pos hcond]
  · rw [if_neg hcond]
    cases hns : nextServer b t with
    | mk c b1 => cases c <;> rfl

theorem insertName_mem_self (l : List String) (n : String) : n ∈ insertName l n := by
  unfold insertName
  split
  next h => exact h
  next => exact List.mem_cons_self n l

theorem insertName_mem (l : List String) (n x : String) :
    x ∈ insertName l n → x = n ∨ x ∈ l := by
  unfold insertName
  split
  next => exact fun h => Or.inr h
  next => exact fun h => List.mem_cons.mp h

theorem insertName_of_mem {l : List String} {n : String} (h : n ∈ l) :
    insertName l n = l := by
  unfold insertName
  rw [if_pos h]

theorem removeName_not_mem (l : List String) (n : String) : n ∉ removeName l n := by
  unfold removeName
  intro h
  have := List.mem_filter.mp h
  simp at this

theorem removeName_subset (l : List String) (n x : String) :
    x ∈ removeName l n → x ∈ l :=
  fun h => List.mem_of_mem_filter h

theorem removeName_of_not_mem {l : List String} {n : String} (h : n ∉ l) :
    removeName l n = l := by
  unfold removeName
  apply List.filter_eq_self.mpr
  intro a ha
  simp only [ne_eq, decide_eq_true_eq]
  intro he
  exact h (he ▸ ha)

theorem setStatus_fst (b : LBBalancer) (n : String) (u : Bool) :
    (setStatus b n u).1 =
      { b with status := if u then insertName b.status n else removeName b.status n } := by
  unfold setStatus
  split <;> (dsimp only; split <;> rfl)

theorem setStatus_events (b : LBBalancer) (n : String) (u : Bool) :
    (setStatus b n u).2 =
      if (!b.status.isEmpty) =
          (!(if u then insertName b.status n else removeName b.status n).isEmpty) then []
      else b.updaters.map (fun v =>
        (v, !(if u then insertName b.status n else removeName b.status n).isEmpty)) := by
  unfold setStatus
  split <;> (dsimp only; split <;> rfl)

theorem setStatus_handlers (b : LBBalancer) (n : String) (u : Bool) :
    (setStatus b n u).1.handlers = b.handlers := by
  rw [setStatus_fst]

theorem registerStatusUpdater_handlers (b : LBBalancer) (u : Nat) :
    (registerStatusUpdater b u).1.handlers = b.handlers := by
  unfold registerStatusUpdater
  split <;> rfl

theorem registerStatusUpdater_status (b : LBBalancer) (u : Nat) :
    (registerStatusUpdater b u).1.status = b.status := by
  unfold registerStatusUpdater
  split <;> rfl

theorem add_events (b : LBBalancer) (name : String) (bu a p prio : Option Int) :
    (add b name bu a p prio).2 = [] := by
  unfold add
  dsimp only
  split <;> rfl

theorem add_nonpositive (b : LBBalancer) (name : String) (bu p prio : Option Int)
    {a : Int} (ha : a ≤ 0) : add b name bu (some a) p prio = (b, []) := by
  unfold add
  rw [if_pos (by simpa using ha)]

theorem add_positive (b : LBBalancer) (name : String) (bu p prio : Option Int)
    {a : Int} (ha : 0 < a) :
    (add b name bu (some a) p prio).1 =
      { b with
          handlers := heapPush b.handlers
            (mkHandler name (if bu.getD 1 ≤ 1 then 1 else bu.getD 1) a
              (if p.getD 1 ≤ 0 then 1 else p.getD 1)
              (if prio.getD 1 ≤ 0 then 1 else prio.getD 1)),
          status := insertName b.status name } := by
  unfold add
  rw [if_neg (by simp; omega)]
  rfl

theorem dispatch_served_mem {b : LBBalancer} {t : Frac} {n : String}
    (h : (dispatch b t).1 = .served n) : n ∈ b.handlers.map namedHandler.name := by
  unfold dispatch at h
  by_cases hcond : (b.handlers.isEmpty || b.status.isEmpty) = true
  · rw [if_pos hcond] at h
    exact absurd h (by simp)
  · rw [if_neg hcond] at h
    cases hns : nextServer b t with
    | mk c b1 =>
      rw [hns] at h
      cases c with
      | none => exact absurd h (by simp)
      | some hh =>
        simp only [DispatchResult.served.injEq] at h
        subst h
        have hc : (selectScan b.handlers b.status t []).1 = some hh := by
          unfold nextServer at hns
          rw [if_neg hcond] at hns
          have := congrArg Prod.fst hns
          simpa [selectLoop] using this
        have hfacts := selectScanF_scan_facts b.handlers.length b.handlers b.status t (le_refl _)
        obtain ⟨-, -, hmem⟩ := hfacts
        obtain ⟨-, -, hscan⟩ := hmem hh hc
        have hkmem : entryKey hh ∈
            (selectScanF b.handlers.length b.handlers b.status t []).2.2.map entryKey :=
          List.mem_map_of_mem entryKey hscan
        have hkpool : entryKey hh ∈ b.handlers.map entryKey :=
          (selectScanF_scan_facts b.handlers.length b.handlers b.status t
            (le_refl _)).1.subset (List.mem_append_left _ hkmem)
        have : hh.name ∈ (b.handlers.map entryKey).map Prod.fst :=
          List.mem_map_of_mem Prod.fst hkpool
        simpa [List.map_map, Function.comp, entryKey] using this

theorem map_name_eq (l : List namedHandler) :
    l.map namedHandler.name = (l.map entryKey).map Prod.fst := by
  rw [List.map_map]
  rfl

theorem dispatch_names_perm (b : LBBalancer) (t : Frac) :
    ((dispatch b t).2.handlers.map namedHandler.name).Perm
      (b.handlers.map namedHandler.name) := by
  rw [map_name_eq, map_name_eq, dispatch_state]
  exact (nextServer_handlers_key_perm b t).map Prod.fst

theorem add_handlers_names (b : LBBalancer) (n2 : String) (bu a p prio : Option Int) :
    ∀ x ∈ (add b n2 bu a p prio).1.handlers.map namedHandler.name,
      x = n2 ∨ x ∈ b.handlers.map namedHandler.name := by
  unfold add
  dsimp only
  split
  next => exact fun x hx => Or.inr hx
  next =>
    intro x hx
    simp only at hx
    have hperm := (heapPush_perm b.handlers
      (mkHandler n2 (if bu.getD 1 ≤ 1 then 1 else bu.getD 1) (a.getD 1)
        (if p.getD 1 ≤ 0 then 1 else p.getD 1)
        (if prio.getD 1 ≤ 0 then 1 else prio.getD 1))).map namedHandler.name
    rcases List.mem_cons.mp (hperm.subset hx) with h | h
    · exact Or.inl h
    · exact Or.inr h

theorem applyOp_not_name_mem {n : String} {b : LBBalancer} {op : Op}
    (hn : n ∉ b.handlers.map namedHandler.name) (hop : addsName n op = false) :
    n ∉ (applyOp b op).handlers.map namedHandler.name := by
  cases op with
  | addOp n2 bu a p prio =>
    intro hmem
    rcases add_handlers_names b n2 bu a p prio n hmem with h | h
    · simp only [addsName] at hop
      rw [h] at hop
      simp at hop
    · exact hn h
  | setStatusOp n2 u =>
    show n ∉ (setStatus b n2 u).1.handlers.map namedHandler.name
    rw [setStatus_handlers]
    exact hn
  | registerOp u =>
    show n ∉ (registerStatusUpdater b u).1.handlers.map namedHandler.name
    rw [registerStatusUpdater_handlers]
    exact hn
  | dispatchOp t =>
    intro hmem
    exact hn ((dispatch_names_perm b t).subset hmem)

theorem servedBy_not_mem {n : String} {b : LBBalancer} (op : Op)
    (hn : n ∉ b.handlers.map namedHandler.name) : n ∉ servedBy b op := by
  cases op with
  | addOp n2 bu a p prio => simp [servedBy]
  | setStatusOp n2 u => simp [servedBy]
  | registerOp u => simp [servedBy]
  | dispatchOp t =>
    show n ∉ (match (dispatch b t).1 with
      | DispatchResult.served m => [m]
      | DispatchResult.serviceUnavailable => [])
    cases hd : (dispatch b t).1 with
    | served m =>
      intro hmem
      rw [List.mem_singleton] at hmem
      subst hmem
      exact hn (dispatch_served_mem hd)
    | serviceUnavailable => simp

theorem servedOps_not_mem {n : String} :
    ∀ (ops : List Op) (b : LBBalancer), n ∉ b.handlers.map namedHandler.name →
      (∀ op ∈ ops, addsName n op = false) → n ∉ servedOps b ops := by
  intro ops
  induction ops with
  | nil => intro b hn hops; simp [servedOps]
  | cons op ops ih =>
    intro b hn hops
    show n ∉ servedBy b op ++ servedOps (applyOp b op) ops
    rw [List.mem_append]
    push_neg
    refine ⟨servedBy_not_mem op hn, ?_⟩
    exact ih (applyOp b op) (applyOp_not_name_mem hn (hops op (List.mem_cons_self _ _)))
      (fun o ho => hops o (List.mem_cons_of_mem _ ho))

theorem statusInPool_applyOp {b : LBBalancer} {op : Op} (hb : StatusInPool b)
    (hop : goodOp b op = true) : StatusInPool (applyOp b op) := by
  cases op with
  | addOp n2 bu a p prio =>
    show StatusInPool (add b n2 bu a p prio).1
    unfold add
    dsimp only
    split
    next => exact hb
    next =>
      intro x hx
      simp only at hx ⊢
      have hperm := (heapPush_perm b.handlers
        (mkHandler n2 (if bu.getD 1 ≤ 1 then 1 else bu.getD 1) (a.getD 1)
          (if p.getD 1 ≤ 0 then 1 else p.getD 1)
          (if prio.getD 1 ≤ 0 then 1 else prio.getD 1))).map namedHandler.name
    -- x came from insertName b.status n2
      rcases insertName_mem b.status n2 x hx with h | h
      · refine (hperm.mem_iff).mpr ?_
        rw [h]
        exact List.mem_cons_self _ _
      · exact (hperm.mem_iff).mpr (List.mem_cons_of_mem _ (hb x h))
  | setStatusOp n2 u =>
    show StatusInPool (setStatus b n2 u).1
    rw [setStatus_fst]
    intro x hx
    simp only at hx ⊢
    cases u with
    | true =>
      simp only [if_pos rfl] at hx
      rcases insertName_mem b.status n2 x hx with h | h
      · subst h
        simp only [goodOp] at hop
        have : x ∈ b.handlers.map namedHandler.name := by
          simpa [List.contains] using hop
        exact this
      · exact hb x h
    | false =>
      simp only [Bool.false_eq_true, if_neg] at hx
      exact hb x (removeName_subset b.status n2 x (by simpa using hx))
  | registerOp u =>
    show StatusInPool (registerStatusUpdater b u).1
    intro x hx
    rw [registerStatusUpdater_status] at hx
    rw [registerStatusUpdater_handlers]
    exact hb x hx
  | dispatchOp t =>
    show StatusInPool (dispatch b t).2
    intro x hx
    rw [dispatch_state, nextServer_status] at hx
    exact ((dispatch_names_perm b t).mem_iff).mpr (hb x hx)

theorem statusInPool_runOps :
    ∀ (ops : List Op) (b : LBBalancer), StatusInPool b → goodTrace b ops = true →
      StatusInPool (runOps b ops) := by
  intro ops
  induction ops with
  | nil => intro b hb _; exact hb
  | cons op ops ih =>
    intro b hb hops
    have h1 : goodOp b op = true ∧ goodTrace (applyOp b op) ops = true := by
      simpa [goodTrace, Bool.and_eq_true] using hops
    show StatusInPool (runOps (applyOp b op) ops)
    exact ih (applyOp b op) (statusInPool_applyOp hb h1.1) h1.2

theorem prioAt_eq_of_get? {l : List namedHandler} {i : Nat} {a : namedHandler}
    (h : l.get? i = some a) : prioAt l i = a.priority := by
  unfold prioAt
  rw [List.getD_eq_get?, h]
  rfl

theorem lessAt_iff {l : List namedHandler} {i j : Nat} (hi : i < l.length)
    (hj : j < l.length) : lessAt l i j = true ↔ prioAt l i < prioAt l j := by
  unfold lessAt
  split
  next a b h1 h2 =>
    rw [prioAt_eq_of_get? h1, prioAt_eq_of_get? h2]
    exact ⟨of_decide_eq_true, decide_eq_true⟩
  next hcontra =>
    exact absurd (And.intro (List.get?_eq_get hi) (List.get?_eq_get hj))
      (fun hc => hcontra _ _ hc.1 hc.2)

theorem prioAt_swapL_fst {l : List namedHandler} {i j : Nat} (hi : i < l.length)
    (hj : j < l.length) : prioAt (swapL l i j) i = prioAt l j := by
  unfold prioAt
  rw [List.getD_eq_get?, List.getD_eq_get?, get?_swapL_left l hi hj]

theorem prioAt_swapL_snd {l : List namedHandler} {i j : Nat} (hi : i < l.length)
    (hj : j < l.length) : prioAt (swapL l i j) j = prioAt l i := by
  unfold prioAt
  rw [List.getD_eq_get?, List.getD_eq_get?, get?_swapL_right l hi hj]

theorem prioAt_swapL_other (l : List namedHandler) {i j k : Nat} (hki : k ≠ i) (hkj : k ≠ j) :
    prioAt (swapL l i j) k = prioAt l k := by
  unfold prioAt
  rw [List.getD_eq_get?, List.getD_eq_get?, get?_swapL_of_ne l hki hkj]

theorem parent_eq_iff (i j : Nat) (h0 : 0 < j) :
    (j - 1) / 2 = i ↔ j = 2 * i + 1 ∨ j = 2 * i + 2 := by
  omega

theorem almostHeap_of_children {l : List namedHandler} {n i : Nat}
    (ha : AlmostHeap l n i)
    (hchild : ∀ c, c < n → 0 < c → (c - 1) / 2 = i → prioAt l i ≤ prioAt l c) :
    IsHeapUpTo l n := by
  intro j hj h0j
  by_cases hp : (j - 1) / 2 = i
  · rw [hp]
    exact hchild j hj h0j hp
  · exact ha.1 j hj h0j hp

theorem almostHeap_swap_step {l : List namedHandler} {n i j : Nat}
    (hlen : n ≤ l.length) (hij : 2 * i + 1 ≤ j) (hj2 : j ≤ 2 * i + 2) (hjn : j < n)
    (hjmin : ∀ c, c < n → 0 < c → (c - 1) / 2 = i → prioAt l j ≤ prioAt l c)
    (hlt : prioAt l j < prioAt l i)
    (ha : AlmostHeap l n i) : AlmostHeap (swapL l i j) n j := by
  have hiln : i < n := by omega
  have hil : i < l.length := by omega
  have hjl : j < l.length := by omega
  constructor
  · intro c hc h0c hpc
    by_cases hcj : c = j
    · subst hcj
      have hpi : (c - 1) / 2 = i := by omega
      rw [hpi, prioAt_swapL_fst hil hjl, prioAt_swapL_snd hil hjl]
      exact hlt.le
    · by_cases hpci : (c - 1) / 2 = i
      · have hci : c ≠ i := by omega
        rw [hpci, prioAt_swapL_fst hil hjl, prioAt_swapL_other l hci hcj]
        exact hjmin c hc h0c hpci
      · by_cases hci : c = i
        · subst hci
          have hp2 : (c - 1) / 2 ≠ j := by omega
          rw [prioAt_swapL_other l hpci hp2, prioAt_swapL_fst hil hjl]
          exact ha.2 j hjn (by omega) (by omega) h0c
        · have hp2 : (c - 1) / 2 ≠ j := hpc
          rw [prioAt_swapL_other l hpci hp2, prioAt_swapL_other l hci hcj]
          exact ha.1 c hc h0c hpci
  · intro c hc h0c hpc _
    have hpj : (j - 1) / 2 = i := by omega
    have hc1 : c ≠ i := by omega
    have hc2 : c ≠ j := by omega
    rw [hpj, prioAt_swapL_fst hil hjl, prioAt_swapL_other l hc1 hc2]
    have h5 := ha.1 c hc h0c (by omega)
    rw [hpc] at h5
    exact h5

theorem downHF_heap :
    ∀ (fuel : Nat) (l : List namedHandler) (i n : Nat), n - i ≤ fuel → n ≤ l.length →
      AlmostHeap l n i → IsHeapUpTo (downHF fuel l i n) n := by
  intro fuel
  induction fuel with
  | zero =>
    intro l i n hk hlen ha
    refine almostHeap_of_children ha ?_
    intro c hc h0c hpc
    have := (parent_eq_iff i c h0c).mp hpc
    omega
  | succ fuel ih =>
    intro l i n hk hlen ha
    simp only [downHF]
    by_cases h1 : n ≤ 2 * i + 1
    · rw [if_pos h1]
      refine almostHeap_of_children ha ?_
      intro c hc h0c hpc
      have := (parent_eq_iff i c h0c).mp hpc
      omega
    · rw [if_neg h1]
      by_cases h2 : 2 * i + 1 + 1 < n ∧ lessAt l (2 * i + 1 + 1) (2 * i + 1) = true
      · rw [if_pos h2]
        have hjn : 2 * i + 1 + 1 < n := h2.1
        have hjmin : ∀ c, c < n → 0 < c → (c - 1) / 2 = i →
            prioAt l (2 * i + 1 + 1) ≤ prioAt l c := by
          intro c hc h0c hpc
          rcases (parent_eq_iff i c h0c).mp hpc with hc1 | hc2
          · subst hc1
            have := (lessAt_iff (by omega : 2 * i + 1 + 1 < l.length)
              (by omega : 2 * i + 1 < l.length)).mp h2.2
            omega
          · subst hc2
            have hidx : 2 * i + 1 + 1 = 2 * i + 2 := by omega
            rw [hidx]
        by_cases h3 : lessAt l (2 * i + 1 + 1) i = true
        · rw [if_neg (not_not_intro h3)]
          have hlt : prioAt l (2 * i + 1 + 1) < prioAt l i :=
            (lessAt_iff (by omega) (by omega)).mp h3
          refine ih (swapL l i (2 * i + 1 + 1)) (2 * i + 1 + 1) n (by omega)
            (by rw [length_swapL]; exact hlen)
            (almostHeap_swap_step hlen (by omega) (by omega) hjn hjmin hlt ha)
        · rw [if_pos h3]
          refine almostHeap_of_children ha ?_
          intro c hc h0c hpc
          have hge : prioAt l i ≤ prioAt l (2 * i + 1 + 1) := by
            by_contra hcon
            push_neg at hcon
            exact h3 ((lessAt_iff (by omega : 2 * i + 1 + 1 < l.length)
              (by omega : i < l.length)).mpr hcon)
          exact le_trans hge (hjmin c hc h0c hpc)
      · rw [if_neg h2]
        have hjmin : ∀ c, c < n → 0 < c → (c - 1) / 2 = i →
            prioAt l (2 * i + 1) ≤ prioAt l c := by
          intro c hc h0c hpc
          rcases (parent_eq_iff i c h0c).mp hpc with hc1 | hc2
          · subst hc1
            exact le_refl _
          · subst hc2
            have hc2n : 2 * i + 1 + 1 < n := by omega
            by_contra hcon
            push_neg at hcon
            exact h2 ⟨hc2n, (lessAt_iff (by omega : 2 * i + 1 + 1 < l.length)
              (by omega : 2 * i + 1 < l.length)).mpr hcon⟩
        by_cases h3 : lessAt l (2 * i + 1) i = true
        · rw [if_neg (not_not_intro h3)]
          have hlt : prioAt l (2 * i + 1) < prioAt l i :=
            (lessAt_iff (by omega) (by omega)).mp h3
          refine ih (swapL l i (2 * i + 1)) (2 * i + 1) n (by omega)
            (by rw [length_swapL]; exact hlen)
            (almostHeap_swap_step hlen (by omega) (by omega) (by omega) hjmin hlt ha)
        · rw [if_pos h3]
          refine almostHeap_of_children ha ?_
          intro c hc h0c hpc
          have hge : prioAt l i ≤ prioAt l (2 * i + 1) := by
            by_contra hcon
            push_neg at hcon
            exact h3 ((lessAt_iff (by omega : 2 * i + 1 < l.length)
              (by omega : i < l.length)).mpr hcon)
          exact le_trans hge (hjmin c hc h0c hpc)

theorem isHeapUpTo_min {l : List namedHandler} {n : Nat} (hh : IsHeapUpTo l n) :
    ∀ j, j < n → prioAt l 0 ≤ prioAt l j := by
  intro j
  induction j using Nat.strong_induction_on with
  | _ j ih =>
    intro hj
    cases Nat.eq_zero_or_pos j with
    | inl h0 =>
      subst h0
      exact le_refl _
    | inr h0 =>
      have hp : (j - 1) / 2 < j := by omega
      exact le_trans (ih _ hp (by omega)) (hh j hj h0)

theorem almostHeap_pop (l : List namedHandler) (hh : IsHeap l) (hne : l ≠ []) :
    AlmostHeap (swapL l 0 (l.length - 1)) (l.length - 1) 0 := by
  have hl0 : 0 < l.length := List.length_pos.mpr hne
  constructor
  · intro c hc h0c hpc
    rw [prioAt_swapL_other l (by omega : (c - 1) / 2 ≠ 0)
        (by omega : (c - 1) / 2 ≠ l.length - 1),
      prioAt_swapL_other l (by omega : c ≠ 0) (by omega : c ≠ l.length - 1)]
    exact hh c (by omega) h0c
  · intro c hc h0c hpc h0i
    exact absurd h0i (lt_irrefl 0)

theorem heapPop_isHeap {l : List namedHandler} (hh : IsHeap l) {h : namedHandler}
    {rest : List namedHandler} (hp : heapPop l = some (h, rest)) : IsHeap rest := by
  have hne : l ≠ [] := by
    intro h0
    rw [(heapPop_none_iff l).mpr h0] at hp
    exact absurd hp (by simp)
  have hl0 : 0 < l.length := List.length_pos.mpr hne
  rw [heapPop_of_ne_nil hne] at hp
  simp only [Option.some.injEq, Prod.mk.injEq] at hp
  have hlen1 : (downH (swapL l 0 (l.length - 1)) 0 (l.length - 1)).length = l.length := by
    rw [length_downH, length_swapL]
  have hheap : IsHeapUpTo (downH (swapL l 0 (l.length - 1)) 0 (l.length - 1))
      (l.length - 1) := by
    refine downHF_heap (l.length - 1 - 0) _ 0 (l.length - 1) (le_refl _) ?_
      (almostHeap_pop l hh hne)
    rw [length_swapL]
    omega
  have hrest : rest = (downH (swapL l 0 (l.length - 1)) 0 (l.length - 1)).dropLast :=
    hp.2.symm
  have hrestlen : rest.length = l.length - 1 := by
    rw [hrest, List.length_dropLast, hlen1]
  have hpk : ∀ k, k < l.length - 1 →
      prioAt rest k = prioAt (downH (swapL l 0 (l.length - 1)) 0 (l.length - 1)) k := by
    intro k hk
    unfold prioAt
    rw [List.getD_eq_get?, List.getD_eq_get?, hrest, List.dropLast_eq_take,
      List.get?_take (by omega : k < (downH (swapL l 0 (l.length - 1)) 0
        (l.length - 1)).length - 1)]
  intro j hj h0j
  rw [hrestlen] at hj
  rw [hpk j hj, hpk ((j - 1) / 2) (by omega)]
  exact hheap j hj h0j

theorem heapPop_min {l : List namedHandler} (hh : IsHeap l) {h : namedHandler}
    {rest : List namedHandler} (hp : heapPop l = some (h, rest)) :
    ∀ x ∈ l, h.priority ≤ x.priority := by
  intro x hx
  obtain ⟨k, hk⟩ := List.mem_iff_get?.mp hx
  obtain ⟨hkl, -⟩ := List.get?_eq_some.mp hk
  have h2 := isHeapUpTo_min hh k hkl
  rw [prioAt_eq_of_get? hk] at h2
  rw [heapPop_root hp]
  exact h2

theorem selectScanF_sorted :
    ∀ (fuel : Nat) (pool : List namedHandler) (status : List String) (t : Frac),
      pool.length ≤ fuel → IsHeap pool →
      ((selectScanF fuel pool status t []).2.2.map namedHandler.priority).Sorted (· ≤ ·) ∧
      (∀ x ∈ (selectScanF fuel pool status t []).2.2, ∃ y ∈ pool, x.priority = y.priority) := by
  intro fuel
  induction fuel with
  | zero =>
    intro pool status t hle hh
    have hnil : pool = [] := List.length_eq_zero.mp (by omega)
    subst hnil
    simp [selectScanF]
  | succ g ih =>
    intro pool status t hle hh
    cases hp : heapPop pool with
    | none =>
      have hnil : pool = [] := (heapPop_none_iff pool).mp hp
      subst hnil
      rw [selectScanF_nil]
      simp
    | some pr =>
      obtain ⟨h0, rest⟩ := pr
      have hperm := heapPop_perm hp
      have hrl := heapPop_length hp
      have hmin := heapPop_min hh hp
      have hrheap := heapPop_isHeap hh hp
      simp only [selectScanF]
      rw [hp]
      dsimp only
      split
      next hcond =>
        constructor
        · simp
        · intro x hx
          simp only [List.nil_append, List.mem_singleton] at hx
          subst hx
          exact ⟨h0, hperm.symm.subset (List.mem_cons_self _ _), rfl⟩
      next hcond =>
        rw [selectScanF_acc]
        obtain ⟨ihs, ihm⟩ := ih rest status t (by omega) hrheap
        have hmem_pool : ∀ y ∈ rest, y ∈ pool := by
          intro y hy
          exact hperm.symm.subset (List.mem_cons_of_mem _ hy)
        constructor
        · simp only [List.nil_append, List.singleton_append, List.map_cons]
          rw [List.sorted_cons]
          constructor
          · intro bp hbp
            rcases List.mem_map.mp hbp with ⟨x, hxmem, hxeq⟩
            obtain ⟨y, hymem, hyeq⟩ := ihm x hxmem
            subst hxeq
            rw [hyeq]
            exact hmin y (hmem_pool y hymem)
          · exact ihs
        · intro x hx
          simp only [List.nil_append, List.singleton_append, List.mem_cons] at hx
          rcases hx with hx | hx
          · subst hx
            exact ⟨h0, hperm.symm.subset (List.mem_cons_self _ _), rfl⟩
          · obtain ⟨y, hymem, hyeq⟩ := ihm x hx
            exact ⟨y, hmem_pool y hymem, hyeq⟩

theorem selectScan_first_scanned {pool : List namedHandler} {status : List String} {t : Frac}
    {h0 : namedHandler} {rest : List namedHandler} (hp : heapPop pool = some (h0, rest)) :
    ∃ tail, (selectScan pool status t []).2.2 =
      { h0 with canAllow := (allow h0.bucket t).1, bucket := (allow h0.bucket t).2 } :: tail := by
  have he := selectScan_eq pool status t []
  rw [hp] at he
  dsimp only at he
  split at he
  · exact ⟨[], by rw [he]; simp⟩
  · rw [selectScan_popped rest status t] at he
    exact ⟨(selectScan rest status t []).2.2, by rw [he]; simp⟩

theorem selectScan_mem_final {pool : List namedHandler} {status : List String} {t : Frac}
    {x : namedHandler} (hx : x ∈ (selectScan pool status t []).2.2) :
    x ∈ (selectLoop pool status t).2 :=
  (selectLoop_perm_val pool status t).symm.subset (List.mem_append_right _ hx)

theorem selectScan_chosen_healthy {pool : List namedHandler} {status : List String} {t : Frac}
    {h : namedHandler} (hc : (selectScan pool status t []).1 = some h) :
    h.name ∈ status ∧ h.canAllow = true :=
  ⟨((selectScanF_scan_facts pool.length pool status t (le_refl _)).2.2 h hc).1,
   ((selectScanF_scan_facts pool.length pool status t (le_refl _)).2.2 h hc).2.1⟩

theorem allow_true_tokens {bk : Bucket} {t : Frac} (h : (allow bk t).1 = true) :
    (allow bk t).2.tokens = advance bk t - 1 ∧ (allow bk t).2.last = t := by
  unfold allow at h ⊢
  dsimp only at h ⊢
  split at h
  next hcond =>
    rw [if_pos hcond]
    exact ⟨rfl, rfl⟩
  next =>
    exact absurd h (by simp)

theorem setStatus_second_events (b : LBBalancer) (n : String) (u : Bool) :
    (setStatus (setStatus b n u).1 n u).2 = [] := by
  rw [setStatus_events, setStatus_fst]
  cases u with
  | true =>
    have h1 := insertName_of_mem (insertName_mem_self b.status n)
    simp [h1]
  | false =>
    have h1 := removeName_of_not_mem (removeName_not_mem b.status n)
    simp [h1]

/-- Claim C1 (counterexample): with backends A(priority 1, burst 1, average 1 per
3 units), B(priority 2, burst 1, average 1 per 2 units), C(priority 3, burst 2,
average 1 per 1 unit), all healthy with full buckets, four dispatches at times
0, 1, 2, 3 select A, B, C and then A again — A's bucket holds exactly one
refilled token at time 3 — so the claimed counts (A once, B once, C twice) are
wrong. -/
theorem claim1_counterexample :
    scenarioServed = ["A", "B", "C", "A"] ∧
    ¬(scenarioServed.count "A" = 1 ∧ scenarioServed.count "B" = 1 ∧
      scenarioServed.count "C" = 2) := by
  decide

/-- Claim C1 (amended): the four dispatches spaced one unit apart select A
twice, B once and C once. -/
theorem claim1_amended :
    scenarioServed.length = 4 ∧ scenarioServed.count "A" = 2 ∧
    scenarioServed.count "B" = 1 ∧ scenarioServed.count "C" = 1 := by
  decide

/-- Claim C2 (counterexample): `SetStatus(name, true)` inserts the name into
the healthy set unconditionally, so one call with a never-registered name
breaks the claimed invariant on a reachable state. -/
theorem claim2_counterexample :
    ¬ StatusInPool (runOps (newBalancer false) [Op.setStatusOp "ghost" true]) := by
  decide

/-- Claim C2 (amended): the invariant "every healthy name belongs to a pool
entry" is preserved by every Add, RegisterStatusUpdater and dispatch call and
by every SetStatus call that is down or whose name is already in the pool;
it can only be broken by a SetStatus(name, true) whose name is not pooled. -/
theorem claim2_amended (b : LBBalancer) (ops : List Op) (hb : StatusInPool b)
    (hops : goodTrace b ops = true) : StatusInPool (runOps b ops) :=
  statusInPool_runOps ops b hb hops

theorem claim2_witness :
    StatusInPool (newBalancer false) ∧
    goodTrace (newBalancer false)
      [Op.addOp "x" (some 1) (some 1) (some 1) (some 1), Op.setStatusOp "x" true,
        Op.dispatchOp (Frac.ofInt 0), Op.setStatusOp "x" false] = true ∧
    StatusInPool (runOps (newBalancer false)
      [Op.addOp "x" (some 1) (some 1) (some 1) (some 1), Op.setStatusOp "x" true,
        Op.dispatchOp (Frac.ofInt 0), Op.setStatusOp "x" false]) :=
  ⟨by decide, by decide, claim2_amended (newBalancer false) _ (by decide) (by decide)⟩

/-- Claim C3: every dispatch (fast-path or full selection round) leaves the
pool's entry multiset — entries compared by their immutable identity (name and
parameters; the admission state is the entries' own mutable field) — and hence
the pool size unchanged: all provisionally popped entries, including the
chosen one, are reinserted. -/
theorem claim3_pool_preserved (b : LBBalancer) (t : Frac) :
    ((dispatch b t).2.handlers.map entryKey).Perm (b.handlers.map entryKey) ∧
    (dispatch b t).2.handlers.length = b.handlers.length := by
  have hk : ((dispatch b t).2.handlers.map entryKey).Perm (b.handlers.map entryKey) := by
    rw [dispatch_state]
    exact nextServer_handlers_key_perm b t
  refine ⟨hk, ?_⟩
  have := hk.length_eq
  simpa using this

/-- Claim C4: in a selection round the admission gate runs before the health
check: when the minimum-priority entry has a token but is unhealthy, the token
is consumed (tokens drop to the advanced value minus one), the consumed-state
entry is what gets reinserted into the pool — no operation restores the
token — and that entry is not the chosen one. -/
theorem claim4_token_consumed (pool : List namedHandler) (status : List String) (t : Frac)
    (h0 : namedHandler) (rest : List namedHandler)
    (hp : heapPop pool = some (h0, rest)) (hunh : h0.name ∉ status)
    (hall : (allow h0.bucket t).1 = true) :
    (allow h0.bucket t).2.tokens = advance h0.bucket t - 1 ∧
    (∃ tail, (selectScan pool status t []).2.2 =
      { h0 with canAllow := true, bucket := (allow h0.bucket t).2 } :: tail) ∧
    { h0 with canAllow := true, bucket := (allow h0.bucket t).2 } ∈
      (selectLoop pool status t).2 ∧
    (selectLoop pool status t).1 ≠
      some { h0 with canAllow := true, bucket := (allow h0.bucket t).2 } := by
  have hfs := @selectScan_first_scanned pool status t h0 rest hp
  rw [hall] at hfs
  obtain ⟨tail, htail⟩ := hfs
  refine ⟨(allow_true_tokens hall).1, ⟨tail, htail⟩, ?_, ?_⟩
  · apply selectScan_mem_final
    rw [htail]
    exact List.mem_cons_self _ _
  · intro hcon
    have hsc : (selectScan pool status t []).1 =
        some { h0 with canAllow := true, bucket := (allow h0.bucket t).2 } := hcon
    exact hunh (selectScan_chosen_healthy hsc).1

theorem claim4_witness :
    heapPop (heapPush (heapPush [] (mkHandler "X" 1 1 1 1)) (mkHandler "Y" 1 1 1 2)) =
      some (mkHandler "X" 1 1 1 1, [mkHandler "Y" 1 1 1 2]) ∧
    (mkHandler "X" 1 1 1 1).name ∉ ["Y"] ∧
    (allow (mkHandler "X" 1 1 1 1).bucket (Frac.ofInt 0)).1 = true ∧
    ((allow (mkHandler "X" 1 1 1 1).bucket (Frac.ofInt 0)).2.tokens =
      advance (mkHandler "X" 1 1 1 1).bucket (Frac.ofInt 0) - 1 ∧
    (∃ tail, (selectScan (heapPush (heapPush [] (mkHandler "X" 1 1 1 1))
        (mkHandler "Y" 1 1 1 2)) ["Y"] (Frac.ofInt 0) []).2.2 =
      { mkHandler "X" 1 1 1 1 with
          canAllow := true,
          bucket := (allow (mkHandler "X" 1 1 1 1).bucket (Frac.ofInt 0)).2 } :: tail) ∧
    { mkHandler "X" 1 1 1 1 with
        canAllow := true,
        bucket := (allow (mkHandler "X" 1 1 1 1).bucket (Frac.ofInt 0)).2 } ∈
      (selectLoop (heapPush (heapPush [] (mkHandler "X" 1 1 1 1))
        (mkHandler "Y" 1 1 1 2)) ["Y"] (Frac.ofInt 0)).2 ∧
    (selectLoop (heapPush (heapPush [] (mkHandler "X" 1 1 1 1))
        (mkHandler "Y" 1 1 1 2)) ["Y"] (Frac.ofInt 0)).1 ≠
      some { mkHandler "X" 1 1 1 1 with
        canAllow := true,
        bucket := (allow (mkHandler "X" 1 1 1 1).bucket (Frac.ofInt 0)).2 }) :=
  ⟨by decide, by decide, by decide,
   claim4_token_consumed
     (heapPush (heapPush [] (mkHandler "X" 1 1 1 1)) (mkHandler "Y" 1 1 1 2)) ["Y"]
     (Frac.ofInt 0) (mkHandler "X" 1 1 1 1) [mkHandler "Y" 1 1 1 2]
     (by decide) (by decide) (by decide)⟩

/-- Claim C5: within one dispatch's selection round over a pool satisfying the
binary-heap invariant, the loop performs at most pool-size iterations (the
scanned list has at most pool-size entries), evaluates each pool entry at most
once (the scanned entries' identities form a sub-multiset of the pool's), the
entries are offered in non-decreasing priority order with a minimum-priority
entry first, and when no entry is chosen the remaining pool is fully
drained (`NoAvailableBackend`). -/
theorem claim5_selection_round (pool : List namedHandler) (status : List String) (t : Frac)
    (hheap : IsHeap pool) :
    (selectScan pool status t []).2.2.length ≤ pool.length ∧
    ((selectScan pool status t []).2.2.map entryKey).Subperm (pool.map entryKey) ∧
    ((selectScan pool status t []).2.2.map namedHandler.priority).Sorted (· ≤ ·) ∧
    (∀ h, (selectScan pool status t []).2.2.head? = some h →
      ∀ x ∈ pool, h.priority ≤ x.priority) ∧
    ((selectScan pool status t []).1 = none → (selectScan pool status t []).2.1 = []) := by
  have hfacts := selectScanF_scan_facts pool.length pool status t (le_refl _)
  have hsub : ((selectScan pool status t []).2.2.map entryKey).Subperm (pool.map entryKey) :=
    ((List.sublist_append_left _ _).subperm).trans hfacts.1.subperm
  refine ⟨?_, hsub, ?_, ?_, hfacts.2.1⟩
  · have := hsub.length_le
    simpa using this
  · exact (selectScanF_sorted pool.length pool status t (le_refl _) hheap).1
  · intro h hhead x hx
    cases hp : heapPop pool with
    | none =>
      have hnil : pool = [] := (heapPop_none_iff pool).mp hp
      subst hnil
      exact absurd hx (by simp)
    | some pr =>
      obtain ⟨h0, rest⟩ := pr
      obtain ⟨tail, htail⟩ := @selectScan_first_scanned pool status t h0 rest hp
      rw [htail] at hhead
      simp only [List.head?_cons, Option.some.injEq] at hhead
      subst hhead
      exact heapPop_min hheap hp x hx

theorem claim5_witness :
    IsHeap scenarioB0.handlers ∧
    ((selectScan scenarioB0.handlers scenarioB0.status (Frac.ofInt 0) []).2.2.length ≤
      scenarioB0.handlers.length ∧
    ((selectScan scenarioB0.handlers scenarioB0.status (Frac.ofInt 0) []).2.2.map
      entryKey).Subperm (scenarioB0.handlers.map entryKey) ∧
    ((selectScan scenarioB0.handlers scenarioB0.status (Frac.ofInt 0) []).2.2.map
      namedHandler.priority).Sorted (· ≤ ·) ∧
    (∀ h, (selectScan scenarioB0.handlers scenarioB0.status (Frac.ofInt 0) []).2.2.head? =
        some h → ∀ x ∈ scenarioB0.handlers, h.priority ≤ x.priority) ∧
    ((selectScan scenarioB0.handlers scenarioB0.status (Frac.ofInt 0) []).1 = none →
      (selectScan scenarioB0.handlers scenarioB0.status (Frac.ofInt 0) []).2.1 = [])) :=
  ⟨by decide,
   claim5_selection_round scenarioB0.handlers scenarioB0.status (Frac.ofInt 0) (by decide)⟩

/-- Claim C6: an `Add` whose average is non-positive creates nothing: the
balancer state (pool and healthy set included) is unchanged and no error is
returned (the call's event list is empty and `Add` has no error channel);
and if the name is not already pooled and no later `Add` reuses it, no
subsequent dispatch ever serves that name. -/
theorem claim6_nonpositive_average (b : LBBalancer) (name : String)
    (bu p prio : Option Int) (a : Int) (ha : a ≤ 0) (ops : List Op)
    (hname : name ∉ b.handlers.map namedHandler.name)
    (hops : ∀ op ∈ ops, addsName name op = false) :
    add b name bu (some a) p prio = (b, []) ∧
    name ∉ servedOps (add b name bu (some a) p prio).1 ops := by
  have hid := add_nonpositive b name bu p prio ha
  refine ⟨hid, ?_⟩
  rw [hid]
  exact servedOps_not_mem ops b hname hops

theorem claim6_witness :
    ((-1 : Int) ≤ 0 ∧
     "z" ∉ (scenarioB0.handlers.map namedHandler.name) ∧
     (∀ op ∈ [Op.dispatchOp (Frac.ofInt 0), Op.dispatchOp (Frac.ofInt 1)],
       addsName "z" op = false)) ∧
    (add scenarioB0 "z" (some 1) (some (-1)) (some 1) (some 1) = (scenarioB0, []) ∧
     "z" ∉ servedOps (add scenarioB0 "z" (some 1) (some (-1)) (some 1) (some 1)).1
       [Op.dispatchOp (Frac.ofInt 0), Op.dispatchOp (Frac.ofInt 1)]) :=
  ⟨⟨by decide, by decide, by decide⟩,
   claim6_nonpositive_average scenarioB0 "z" (some 1) (some 1) (some 1) (-1) (by decide)
     [Op.dispatchOp (Frac.ofInt 0), Op.dispatchOp (Frac.ofInt 1)] (by decide) (by decide)⟩

/-- Claim C7: an `Add` that creates an entry stores sanitized parameters: a
provided burst ≤ 1 becomes effective bucket capacity 1 (stored burst and the
limiter's capacity and initial tokens), a provided period ≤ 0 becomes period 1,
a provided priority ≤ 0 becomes priority 1, and values above those thresholds
are stored unchanged; the pushed entry is exactly the sanitized one. -/
theorem claim7_sanitization (b : LBBalancer) (name : String) (bu a p prio : Int)
    (ha : 0 < a) :
    (add b name (some bu) (some a) (some p) (some prio)).1.handlers =
      heapPush b.handlers
        (mkHandler name (if bu ≤ 1 then 1 else bu) a (if p ≤ 0 then 1 else p)
          (if prio ≤ 0 then 1 else prio)) ∧
    (bu ≤ 1 →
      (mkHandler name (if bu ≤ 1 then 1 else bu) a (if p ≤ 0 then 1 else p)
        (if prio ≤ 0 then 1 else prio)).burst = 1 ∧
      (mkHandler name (if bu ≤ 1 then 1 else bu) a (if p ≤ 0 then 1 else p)
        (if prio ≤ 0 then 1 else prio)).bucket.burst = Frac.ofInt 1 ∧
      (mkHandler name (if bu ≤ 1 then 1 else bu) a (if p ≤ 0 then 1 else p)
        (if prio ≤ 0 then 1 else prio)).bucket.tokens = Frac.ofInt 1) ∧
    (1 < bu →
      (mkHandler name (if bu ≤ 1 then 1 else bu) a (if p ≤ 0 then 1 else p)
        (if prio ≤ 0 then 1 else prio)).burst = bu) ∧
    (p ≤ 0 →
      (mkHandler name (if bu ≤ 1 then 1 else bu) a (if p ≤ 0 then 1 else p)
        (if prio ≤ 0 then 1 else prio)).period = 1) ∧
    (0 < p →
      (mkHandler name (if bu ≤ 1 then 1 else bu) a (if p ≤ 0 then 1 else p)
        (if prio ≤ 0 then 1 else prio)).period = p) ∧
    (prio ≤ 0 →
      (mkHandler name (if bu ≤ 1 then 1 else bu) a (if p ≤ 0 then 1 else p)
        (if prio ≤ 0 then 1 else prio)).priority = 1) ∧
    (0 < prio →
      (mkHandler name (if bu ≤ 1 then 1 else bu) a (if p ≤ 0 then 1 else p)
        (if prio ≤ 0 then 1 else prio)).priority = prio) ∧
    (mkHandler name (if bu ≤ 1 then 1 else bu) a (if p ≤ 0 then 1 else p)
      (if prio ≤ 0 then 1 else prio)).average = a := by
  refine ⟨?_, ?_, ?_, ?_, ?_, ?_, ?_, rfl⟩
  · rw [add_positive b name (some bu) (some p) (some prio) ha]
    rfl
  · intro h
    show (if bu ≤ 1 then 1 else bu) = 1 ∧ _ ∧ _
    rw [if_pos h]
    exact ⟨rfl, rfl, rfl⟩
  · intro h
    show (if bu ≤ 1 then 1 else bu) = bu
    rw [if_neg (by omega)]
  · intro h
    show (if p ≤ 0 then 1 else p) = 1
    rw [if_pos h]
  · intro h
    show (if p ≤ 0 then 1 else p) = p
    rw [if_neg (by omega)]
  · intro h
    show (if prio ≤ 0 then 1 else prio) = 1
    rw [if_pos h]
  · intro h
    show (if prio ≤ 0 then 1 else prio) = prio
    rw [if_neg (by omega)]

theorem claim7_witness :
    (0 : Int) < 2 ∧
    ((add (newBalancer false) "w" (some 0) (some 2) (some (-3)) (some 0)).1.handlers =
      heapPush (newBalancer false).handlers
        (mkHandler "w" (if (0 : Int) ≤ 1 then 1 else 0) 2
          (if (-3 : Int) ≤ 0 then 1 else -3) (if (0 : Int) ≤ 0 then 1 else 0)) ∧
    ((0 : Int) ≤ 1 →
      (mkHandler "w" (if (0 : Int) ≤ 1 then 1 else 0) 2 (if (-3 : Int) ≤ 0 then 1 else -3)
        (if (0 : Int) ≤ 0 then 1 else 0)).burst = 1 ∧
      (mkHandler "w" (if (0 : Int) ≤ 1 then 1 else 0) 2 (if (-3 : Int) ≤ 0 then 1 else -3)
        (if (0 : Int) ≤ 0 then 1 else 0)).bucket.burst = Frac.ofInt 1 ∧
      (mkHandler "w" (if (0 : Int) ≤ 1 then 1 else 0) 2 (if (-3 : Int) ≤ 0 then 1 else -3)
        (if (0 : Int) ≤ 0 then 1 else 0)).bucket.tokens = Frac.ofInt 1) ∧
    ((1 : Int) < 0 →
      (mkHandler "w" (if (0 : Int) ≤ 1 then 1 else 0) 2 (if (-3 : Int) ≤ 0 then 1 else -3)
        (if (0 : Int) ≤ 0 then 1 else 0)).burst = 0) ∧
    ((-3 : Int) ≤ 0 →
      (mkHandler "w" (if (0 : Int) ≤ 1 then 1 else 0) 2 (if (-3 : Int) ≤ 0 then 1 else -3)
        (if (0 : Int) ≤ 0 then 1 else 0)).period = 1) ∧
    ((0 : Int) < -3 →
      (mkHandler "w" (if (0 : Int) ≤ 1 then 1 else 0) 2 (if (-3 : Int) ≤ 0 then 1 else -3)
        (if (0 : Int) ≤ 0 then 1 else 0)).period = -3) ∧
    ((0 : Int) ≤ 0 →
      (mkHandler "w" (if (0 : Int) ≤ 1 then 1 else 0) 2 (if (-3 : Int) ≤ 0 then 1 else -3)
        (if (0 : Int) ≤ 0 then 1 else 0)).priority = 1) ∧
    ((0 : Int) < 0 →
      (mkHandler "w" (if (0 : Int) ≤ 1 then 1 else 0) 2 (if (-3 : Int) ≤ 0 then 1 else -3)
        (if (0 : Int) ≤ 0 then 1 else 0)).priority = 0) ∧
    (mkHandler "w" (if (0 : Int) ≤ 1 then 1 else 0) 2 (if (-3 : Int) ≤ 0 then 1 else -3)
      (if (0 : Int) ≤ 0 then 1 else 0)).average = 2) :=
  ⟨by decide, claim7_sanitization (newBalancer false) "w" 0 2 (-3) 0 (by decide)⟩

/-- Claim C8: two consecutive `setStatus(name, up)` calls with the same
arguments fire at most one round of updater notifications: the second call
never fires (its mutation cannot flip the aggregate again), and any call whose
mutation does not flip the aggregate (healthy set non-empty before vs after)
fires none. -/
theorem claim8_setStatus_idempotent (b : LBBalancer) (name : String) (up : Bool) :
    (setStatus (setStatus b name up).1 name up).2 = [] ∧
    ((setStatus b name up).2 ≠ [] →
      b.status.isEmpty ≠ (setStatus b name up).1.status.isEmpty) ∧
    (b.status.isEmpty = (setStatus b name up).1.status.isEmpty →
      (setStatus b name up).2 = []) := by
  have hstat : (setStatus b name up).1.status =
      if up then insertName b.status name else removeName b.status name := by
    rw [setStatus_fst]
  have h3 : b.status.isEmpty = (setStatus b name up).1.status.isEmpty →
      (setStatus b name up).2 = [] := by
    intro heq
    rw [hstat] at heq
    have hcond : (!b.status.isEmpty) =
        (!(if up then insertName b.status name else removeName b.status name).isEmpty) :=
      congrArg (fun z => !z) heq
    rw [setStatus_events, if_pos hcond]
  exact ⟨setStatus_second_events b name up, fun hne heq => absurd (h3 heq) hne, h3⟩

/-- Claim C9: `RegisterStatusUpdater` fails with the configuration error if
and only if the balancer was built without health-check propagation, and in
that case the callback list (indeed the whole state) is unmodified; otherwise
the callback is appended to the list and no error is returned. -/
theorem claim9_register_updater (b : LBBalancer) (u : Nat) :
    ((registerStatusUpdater b u).2.isSome = true ↔ b.wantsHealthCheck = false) ∧
    (b.wantsHealthCheck = false →
      registerStatusUpdater b u =
        (b, some "healthCheck not enabled in config for this leaky bucket service")) ∧
    (b.wantsHealthCheck = true →
      registerStatusUpdater b u = ({ b with updaters := b.updaters ++ [u] }, none)) := by
  unfold registerStatusUpdater
  cases hw : b.wantsHealthCheck <;> simp [hw]

/-- Claim C10: an `Add` that creates an entry marks the name healthy by
writing it straight into the healthy set (bypassing `setStatus`), fires no
updater notification, and leaves the updater list alone — even when the
insertion flips the aggregate health from down (empty set) to up. -/
theorem claim10_add_direct_healthy (b : LBBalancer) (name : String)
    (bu p prio : Option Int) (a : Int) (ha : 0 < a) :
    (add b name bu (some a) p prio).2 = [] ∧
    (add b name bu (some a) p prio).1.status = insertName b.status name ∧
    name ∈ (add b name bu (some a) p prio).1.status ∧
    (add b name bu (some a) p prio).1.updaters = b.updaters ∧
    (b.status = [] → (add b name bu (some a) p prio).1.status ≠ []) := by
  have hpos := add_positive b name bu p prio ha
  refine ⟨add_events _ _ _ _ _ _, ?_, ?_, ?_, ?_⟩
  · rw [hpos]
  · rw [hpos]
    exact insertName_mem_self _ _
  · rw [hpos]
  · intro hemp
    rw [hpos]
    show insertName b.status name ≠ []
    rw [hemp]
    simp [insertName]

theorem claim10_witness :
    (0 : Int) < 1 ∧
    ((add (newBalancer false) "x" (some 1) (some 1) (some 1) (some 1)).2 = [] ∧
    (add (newBalancer false) "x" (some 1) (some 1) (some 1) (some 1)).1.status =
      insertName (newBalancer false).status "x" ∧
    "x" ∈ (add (newBalancer false) "x" (some 1) (some 1) (some 1) (some 1)).1.status ∧
    (add (newBalancer false) "x" (some 1) (some 1) (some 1) (some 1)).1.updaters =
      (newBalancer false).updaters ∧
    ((newBalancer false).status = [] →
      (add (newBalancer false) "x" (some 1) (some 1) (some 1) (some 1)).1.status ≠ [])) :=
  ⟨by decide,
   claim10_add_direct_healthy (newBalancer false) "x" (some 1) (some 1) (some 1) 1 (by decide)⟩

end Lblb
